import Mathlib

/-!
Verification of the entity-resolution core of the blog-automation repository.

The two files with algorithmic content are `scripts/entity_first_collector.py`
and `scripts/live_collect.py`.  This development is a shallow embedding of
their pure text-processing and record-merging functions:

* Python strings are embedded as `List Char` (`Str`); Python floats are
  embedded as `ℚ` (every constant appearing in the scripts is an exact
  decimal, and none of the claims depends on binary rounding of floats);
* the standard-library helpers used by the scripts (`html.unescape`,
  `str.strip`, `str.upper`, `str.isdigit`, the character classes of the
  regexes) are modelled on the character sets the pipeline manipulates:
  ASCII digits and letters, Hangul syllables, whitespace, and the
  punctuation mentioned in the regexes;
* the three model-token regexes of `extract_model` are embedded as
  explicit backtracking matchers with Python's leftmost-then-greedy
  search order.
-/

/-- Python strings, embedded as lists of characters. -/
abbrev Str := List Char

/-- ASCII decimal digit, the `\d` / `[0-9]` class of the scripts' regexes
and the digits recognised by `str.isdigit` on the pipeline's alphabet. -/
def pyIsDigit (c : Char) : Bool :=
  48 ≤ c.toNat && c.toNat ≤ 57

/-- ASCII uppercase letter, the `[A-Z]` class. -/
def isUpperAZ (c : Char) : Bool :=
  65 ≤ c.toNat && c.toNat ≤ 90

/-- ASCII lowercase letter. -/
def isLowerAZ (c : Char) : Bool :=
  97 ≤ c.toNat && c.toNat ≤ 122

/-- ASCII letter, the `[A-Za-z]` class. -/
def isAsciiLetter (c : Char) : Bool :=
  isUpperAZ c || isLowerAZ c

/-- Hangul syllable, the `가-힣` range used by both normalizers. -/
def isHangul (c : Char) : Bool :=
  0xAC00 ≤ c.toNat && c.toNat ≤ 0xD7A3

/-- Letter as tested by Python's `str.isalpha` on the pipeline's
alphabet: ASCII letters and Hangul syllables. -/
def pyIsAlpha (c : Char) : Bool :=
  isAsciiLetter c || isHangul c

/-- Codepoints matched by Python's `\s` class and stripped by
`str.strip` (ASCII whitespace plus the unicode space characters). -/
def pySpaceCodes : List Nat :=
  [9, 10, 11, 12, 13, 28, 29, 30, 31, 32, 0x85, 0xA0, 0x1680,
   0x2000, 0x2001, 0x2002, 0x2003, 0x2004, 0x2005, 0x2006, 0x2007,
   0x2008, 0x2009, 0x200A, 0x2028, 0x2029, 0x202F, 0x205F, 0x3000]

/-- Whitespace as used by `\s` and `str.strip`. -/
def pyIsSpace (c : Char) : Bool :=
  pySpaceCodes.contains c.toNat

/-- Word character for the regex word boundary `\b` on the pipeline's
alphabet: ASCII alphanumerics, underscore, and Hangul. -/
def isWordChar (c : Char) : Bool :=
  pyIsDigit c || isAsciiLetter c || c = '_' || isHangul c

/-- `str.upper` on the pipeline's alphabet: uppercases ASCII letters and
leaves every other character (digits, Hangul, punctuation) unchanged. -/
def pyUpperChar (c : Char) : Char :=
  if isLowerAZ c then Char.ofNat (c.toNat - 32) else c

/-- `str.upper` on strings. -/
def pyUpper (s : Str) : Str :=
  s.map pyUpperChar

/-- `str.lower` on the pipeline's alphabet. -/
def pyLowerChar (c : Char) : Char :=
  if isUpperAZ c then Char.ofNat (c.toNat + 32) else c

/-- `str.lower` on strings. -/
def pyLower (s : Str) : Str :=
  s.map pyLowerChar

/-- `str.strip`: drop leading and trailing whitespace. -/
def pyStrip (s : Str) : Str :=
  List.rdropWhile pyIsSpace (List.dropWhile pyIsSpace s)

/-- Python's `a in b` substring test (`strContains hay pat` is `pat in hay`).
The empty pattern is contained in every string, as in Python. -/
def strContains : Str → Str → Bool
  | hay, pat =>
    pat.isPrefixOf hay ||
      (match hay with
       | [] => false
       | _ :: t => strContains t pat)

/-- One entity reference recognised by the model of `html.unescape`:
given the text after a `&`, return the decoded character and the number
of characters consumed.  The table covers the standard named entities
the collectors can meet (`amp`, `lt`, `gt`, `quot`, `#39`, `nbsp`);
any other `&` is left alone, as `html.unescape` leaves unknown
references unchanged. -/
def tryEntity (rest : Str) : Option (Char × Nat) :=
  if ('a' :: 'm' :: 'p' :: ';' :: []).isPrefixOf rest then some ('&', 4)
  else if ('l' :: 't' :: ';' :: []).isPrefixOf rest then some ('<', 4 - 1)
  else if ('g' :: 't' :: ';' :: []).isPrefixOf rest then some ('>', 3)
  else if ('q' :: 'u' :: 'o' :: 't' :: ';' :: []).isPrefixOf rest then some ('"', 5)
  else if ('#' :: '3' :: '9' :: ';' :: []).isPrefixOf rest then some ('\'', 4)
  else if ('n' :: 'b' :: 's' :: 'p' :: ';' :: []).isPrefixOf rest then some (Char.ofNat 0xA0, 5)
  else none

/-- Worker for the model of `html.unescape`; the fuel argument only
bounds the recursion depth and is irrelevant once it is at least the
length of the string. -/
def unescapeF : Nat → Str → Str
  | 0, s => s
  | _, [] => []
  | fuel + 1, c :: rest =>
    if c = '&' then
      match tryEntity rest with
      | some (d, n) => d :: unescapeF fuel (rest.drop n)
      | none => '&' :: unescapeF fuel rest
    else
      c :: unescapeF fuel rest

/-- Model of `html.unescape`: decode entity references introduced by
`&`; every character other than `&` is passed through unchanged. -/
def unescape (s : Str) : Str :=
  unescapeF s.length s

/-- Index of the first occurrence of `c`, if any. -/
def firstIdx (c : Char) : Str → Option Nat
  | [] => none
  | d :: t => if d = c then some 0 else (firstIdx c t).map (· + 1)

/-- One pass of `re.sub(r'o[^c]+c', '', s)` for a delimiter pair `o`,`c`
(used with `<`/`>` by `strip_tags`, whose replacement is the empty
string): drop each leftmost non-overlapping span that starts with `o`,
contains at least one character other than `c`, and ends at the first
following `c`. -/
def removeDelimF (o c : Char) : Nat → Str → Str
  | 0, s => s
  | _, [] => []
  | fuel + 1, d :: rest =>
    if d = o then
      match firstIdx c rest with
      | some n =>
        if 1 ≤ n then removeDelimF o c fuel (rest.drop (n + 1))
        else d :: removeDelimF o c fuel rest
      | none => d :: removeDelimF o c fuel rest
    else
      d :: removeDelimF o c fuel rest

/-- See `removeDelimF`; the fuel is irrelevant once it is at least the
length of the string. -/
def removeDelim (o c : Char) (s : Str) : Str :=
  removeDelimF o c s.length s

/-- One pass of `re.sub(r'o[^c]+c', ' ', s)` for a delimiter pair
`o`,`c` (used with `[`/`]` and `(`/`)` by `live_collect.normalize_text`,
whose replacement is a single space): replace each leftmost
non-overlapping span by one space. -/
def blankDelimF (o c : Char) : Nat → Str → Str
  | 0, s => s
  | _, [] => []
  | fuel + 1, d :: rest =>
    if d = o then
      match firstIdx c rest with
      | some n =>
        if 1 ≤ n then ' ' :: blankDelimF o c fuel (rest.drop (n + 1))
        else d :: blankDelimF o c fuel rest
      | none => d :: blankDelimF o c fuel rest
    else
      d :: blankDelimF o c fuel rest

/-- See `blankDelimF`; the fuel is irrelevant once it is at least the
length of the string. -/
def blankDelim (o c : Char) (s : Str) : Str :=
  blankDelimF o c s.length s

/-- `re.sub(r'\s+', ' ', s)`: collapse every maximal run of whitespace
to a single ASCII space.  The boolean argument records whether the
previously read character was whitespace. -/
def collapseWs : Bool → Str → Str
  | _, [] => []
  | prevSp, c :: rest =>
    if pyIsSpace c then
      if prevSp then collapseWs true rest
      else ' ' :: collapseWs true rest
    else
      c :: collapseWs false rest

namespace EFC

/-- Model of `strip_tags` from `entity_first_collector.py`:
`re.sub(r'<[^>]+>', '', html.unescape(s or '')).strip()`. -/
def strip_tags (s : Str) : Str :=
  pyStrip (removeDelim '<' '>' (unescape s))

/-- Characters kept by `entity_first_collector.normalize`'s class
`[0-9A-Za-z가-힣\s\-\+]`; everything else is replaced by a space. -/
def efcAllowed (c : Char) : Bool :=
  pyIsDigit c || isAsciiLetter c || isHangul c || pyIsSpace c || c = '-' || c = '+'

/-- The character replacement step of `entity_first_collector.normalize`. -/
def efcRepl (c : Char) : Char :=
  if efcAllowed c then c else ' '

/-- `entity_first_collector.normalize`: strip tags and entities, replace
characters outside `[0-9A-Za-z가-힣\s\-\+]` by spaces, collapse
whitespace runs, and strip. -/
def normalize (s : Str) : Str :=
  pyStrip (collapseWs false ((strip_tags s).map efcRepl))

/-- The `BRANDS` lexicon, in source order (order is significant:
`detect_brand` is first-match). -/
def BRANDS : List Str :=
  ["삼성".toList, "LG".toList, "애플".toList, "샤오미".toList, "다이슨".toList,
   "로보락".toList, "쿠쿠".toList, "쿠첸".toList, "브리타".toList, "필립스".toList,
   "헤라".toList, "라네즈".toList, "설화수".toList, "닥터지".toList]

/-- The `NOISE` vocabulary used by `valid_entity`. -/
def NOISE : List Str :=
  ["뉴스".toList, "속보".toList, "정치".toList, "대선".toList, "국회".toList,
   "정부".toList, "일보".toList, "신문".toList, "기자".toList, "공개".toList,
   "발표".toList]

/-- The `MODEL_STOP` set (brand-like tokens never accepted as models). -/
def MODEL_STOP : List Str :=
  ["BESPOKE".toList, "CUCKOO".toList, "SAMSUNG".toList, "LG".toList,
   "APPLE".toList, "XIAOMI".toList, "DYSON".toList, "ROBOROCK".toList]

/-- The `MODEL_BLACKLIST` set (retailer/platform names). -/
def MODEL_BLACKLIST : List Str :=
  ["29CM".toList, "WCONCEPT".toList, "MUSINSA".toList, "OLIVEYOUNG".toList,
   "NAVER".toList, "COUPANG".toList]

/-- The `BEAUTY_LINE_HINTS` set. -/
def BEAUTY_LINE_HINTS : List Str :=
  ["쿠션".toList, "파운데이션".toList, "립".toList, "틴트".toList, "선크림".toList,
   "에센스".toList, "앰플".toList, "세럼".toList, "크림".toList, "마스크팩".toList]

/-- `detect_brand`: first entry of `BRANDS` (in lexicon order) occurring
as a substring of the normalized text, or the empty string. -/
def detect_brand (text : Str) : Str :=
  ((BRANDS.find? fun b => strContains (normalize text) b).getD [])

/-- Length of the longest prefix whose characters satisfy `p`. -/
def countWhile (p : Char → Bool) : Str → Nat
  | [] => 0
  | c :: t => if p c then countWhile p t + 1 else 0

/-- Repetition counts a greedy bounded quantifier tries, in
backtracking order: from `min run hi` down to `lo`. -/
def countsDesc (lo hi run : Nat) : List Nat :=
  (List.range (min run hi + 1)).reverse.filter (fun k => lo ≤ k)

/-- Word-character test for an optional character (`none` stands for
the edge of the string, which is not a word character). -/
def wordOpt : Option Char → Bool
  | none => false
  | some c => isWordChar c

/-- Alphanumeric class `[A-Z0-9]`. -/
def isUpperDigit (c : Char) : Bool :=
  isUpperAZ c || pyIsDigit c

/-- Class `[A-Z0-9\-\+]`, the tail class of the second model pattern. -/
def isModelTail (c : Char) : Bool :=
  isUpperAZ c || pyIsDigit c || c = '-' || c = '+'

/-- Match of `\b[A-Z]{1,4}\-?[A-Z0-9]{2,8}\b` at the current position
(`prev` is the preceding character, for the word boundary); returns the
match length.  Quantifiers are tried in the regex engine's greedy
backtracking order. -/
def p1At (prev : Option Char) (l : Str) : Option Nat :=
  if wordOpt prev then none
  else
    (countsDesc 1 4 (countWhile isUpperAZ l)).findSome? fun a =>
      let l1 := l.drop a
      let hyps : List Nat :=
        match l1 with
        | '-' :: _ => [1, 0]
        | _ => [0]
      hyps.findSome? fun hy =>
        let l2 := l1.drop hy
        (countsDesc 2 8 (countWhile isUpperDigit l2)).findSome? fun b =>
          if wordOpt (l2.drop b).head? then none else some (a + hy + b)

/-- Match of `\b[A-Z]{1,3}\d{2,5}[A-Z0-9\-\+]*\b` at the current
position; the final boundary compares the word-ness of the last matched
character (which may be `-` or `+`) with the following character. -/
def p2At (prev : Option Char) (l : Str) : Option Nat :=
  if wordOpt prev then none
  else
    (countsDesc 1 3 (countWhile isUpperAZ l)).findSome? fun a =>
      let l1 := l.drop a
      (countsDesc 2 5 (countWhile pyIsDigit l1)).findSome? fun d =>
        let l2 := l1.drop d
        (countsDesc 0 (countWhile isModelTail l2) (countWhile isModelTail l2)).findSome?
          fun t =>
            let lastW :=
              match (l2.take t).getLast? with
              | some c => isWordChar c
              | none => true
            if lastW != wordOpt (l2.drop t).head? then some (a + d + t) else none

/-- Match of `\b\d{2,4}[A-Z]{1,3}\b` at the current position. -/
def p3At (prev : Option Char) (l : Str) : Option Nat :=
  if wordOpt prev then none
  else
    (countsDesc 2 4 (countWhile pyIsDigit l)).findSome? fun d =>
      let l1 := l.drop d
      (countsDesc 1 3 (countWhile isUpperAZ l1)).findSome? fun a =>
        if wordOpt (l1.drop a).head? then none else some (d + a)

/-- `re.search`: scan start positions left to right and return the
leftmost match (as the matched substring). -/
def reSearchGo (pAt : Option Char → Str → Option Nat) :
    Option Char → Str → Option Str
  | prev, l =>
    match pAt prev l with
    | some n => some (l.take n)
    | none =>
      match l with
      | [] => none
      | c :: t => reSearchGo pAt (some c) t

/-- `re.search` from the start of the string. -/
def reSearch (pAt : Option Char → Str → Option Nat) (l : Str) : Option Str :=
  reSearchGo pAt none l

/-- One iteration of the pattern loop of `extract_model`: search the
pattern, and keep the match only if it has length at least 3 and is not
(case-insensitively) `news` or `live`. -/
def tryPattern (pAt : Option Char → Str → Option Nat) (t : Str) : Option Str :=
  match reSearch pAt t with
  | some x =>
    if 3 ≤ x.length && !(pyLower x = "news".toList) && !(pyLower x = "live".toList)
    then some x else none
  | none => none

/-- `extract_model`: try the three token-shape patterns in order on the
normalized text; the first pattern whose leftmost match survives the
length/stoplist check wins. -/
def extract_model (text : Str) : Str :=
  let t := normalize text
  match tryPattern p1At t with
  | some x => x
  | none =>
    match tryPattern p2At t with
    | some x => x
    | none =>
      match tryPattern p3At t with
      | some x => x
      | none => []

/-- `entity_key`: `f"{brand}|{model}"` when both parts are non-empty,
otherwise the empty string. -/
def entity_key (brand model : Str) : Str :=
  if !brand.isEmpty && !model.isEmpty then brand ++ '|' :: model else []

/-- Match of `\d{2}[NC]\d` (shade tokens such as `21N1`). -/
def shadeAt (_ : Option Char) (l : Str) : Option Nat :=
  match l with
  | a :: b :: c :: d :: _ =>
    if pyIsDigit a && pyIsDigit b && (c = 'N' || c = 'C') && pyIsDigit d
    then some 4 else none
  | _ => none

/-- Match of `SPF\s?\d{2}` (the optional space is tried greedily). -/
def spfAt (_ : Option Char) (l : Str) : Option Nat :=
  match l with
  | 'S' :: 'P' :: 'F' :: rest =>
    (match rest with
     | s :: a :: b :: _ =>
       if pyIsSpace s && pyIsDigit a && pyIsDigit b then some 6 else none
     | _ => none).orElse fun _ =>
      match rest with
      | a :: b :: _ => if pyIsDigit a && pyIsDigit b then some 5 else none
      | _ => none
  | _ => none

/-- `normalize_beauty_model`: shade token, else `SPF` token with the
space removed, else a known cushion line name, else empty. -/
def normalize_beauty_model (text : Str) : Str :=
  let t := pyUpper (normalize text)
  match reSearch shadeAt t with
  | some x => x
  | none =>
    match reSearch spfAt t with
    | some x => x.filter fun c => !(c = ' ')
    | none =>
      match ["블랙쿠션".toList, "BLACKCUSHION".toList, "리플렉션".toList,
             "GLOW".toList].find? (fun k => strContains t k) with
      | some k => k
      | none => []

/-- `normalize_model`: upper-cased stripped model, rejected (to empty)
if it is a stop/blacklist token, equals the brand, is a short pure-alpha
token, or is a generic word. -/
def normalize_model (model brand : Str) : Str :=
  let m := pyUpper (pyStrip model)
  let b := pyUpper (pyStrip brand)
  if m.isEmpty then []
  else if m ∈ MODEL_STOP ∨ m ∈ MODEL_BLACKLIST then []
  else if m = b then []
  else if 2 ≤ m.length ∧ m.length ≤ 6 ∧ m.all isUpperAZ then []
  else if m ∈ ["PRO".toList, "MAX".toList, "ULTRA".toList, "AIR".toList] then []
  else m

/-- `model_quality`: 0.9 for letter+digit tokens, 0.6 for digit-bearing
tokens of length at least 4, 0.3 otherwise, 0 for the empty token. -/
def model_quality (model : Str) : ℚ :=
  if model.isEmpty then 0
  else if model.any pyIsAlpha && model.any pyIsDigit then 9 / 10
  else if model.any pyIsDigit && 4 ≤ model.length then 6 / 10
  else 3 / 10

/-- Python's `str.isdigit`: non-empty and all digits. -/
def pyIsDigitStr (s : Str) : Bool :=
  !s.isEmpty && s.all pyIsDigit

/-- `valid_entity`: the ordered, short-circuit rejection rules of the
validation filter. -/
def valid_entity (brand model : Str) : Bool :=
  if brand.isEmpty || model.isEmpty then false
  else if NOISE.any (fun n => strContains brand n) then false
  else if NOISE.any (fun n => strContains model n) then false
  else if pyIsDigitStr model then false
  else if model ∈ MODEL_STOP ∨ model ∈ MODEL_BLACKLIST then false
  else if model = pyUpper brand then false
  else if model_quality model < 11 / 20 then false
  else true

/-- The candidate built from one shopping row title in `main`
(lines 214-218): brand detection, model extraction and normalization,
with the beauty-model fallback when the title carries a beauty hint. -/
def candidateOfTitle (title : Str) : Str × Str :=
  let brand := detect_brand title
  let model := normalize_model (extract_model title) brand
  let model2 :=
    if model.isEmpty && BEAUTY_LINE_HINTS.any (fun h => strContains title h)
    then normalize_beauty_model title
    else model
  (brand, model2)

/-- One pool record, as initialized by the `defaultdict` in `main`
(the `evidence_briefs` field, which no claim mentions, is omitted).
`evidence_links` is a Python `set()` in the program: the program fixes
its contents but not its iteration order, so the field is embedded as a
duplicate-free list standing for those contents, and only
order-independent properties (membership, size, freedom from
duplicates) are ever asserted of it. -/
structure ERec where
  brand : Str
  model_name : Str
  canonical_product_name : Str
  mention_count_24h : Nat
  source_mix : List (Str × Nat)
  evidence_links : List Str
  issue_reasons : List Str
deriving DecidableEq

/-- The record a fresh `defaultdict` entry starts from. -/
def defaultRec : ERec :=
  ⟨[], [], [], 0, [], [], []⟩

/-- The entity pool: records keyed by entity key, in insertion order
(Python dicts iterate in insertion order). -/
abbrev Pool := List (Str × ERec)

/-- Lookup of the (first) record with the given key. -/
def poolLookup : Pool → Str → Option ERec
  | [], _ => none
  | (k', o) :: t, k => if k' = k then some o else poolLookup t k

/-- Lookup with the `defaultdict` default. -/
def poolGetD (p : Pool) (k : Str) : ERec :=
  (poolLookup p k).getD defaultRec

/-- `pool[k]` followed by in-place mutation: update the record in place
if the key exists, otherwise append a freshly defaulted record (this is
`defaultdict` auto-vivification; new keys go to the end, preserving
insertion order). -/
def poolModify : Pool → Str → (ERec → ERec) → Pool
  | [], k, f => [(k, f defaultRec)]
  | (k', o) :: t, k, f =>
    if k' = k then (k', f o) :: t else (k', o) :: poolModify t k f

/-- `source_mix[src] += 1` on an insertion-ordered counter. -/
def mixBump : List (Str × Nat) → Str → List (Str × Nat)
  | [], s => [(s, 1)]
  | (s', n) :: t, s =>
    if s' = s then (s', n + 1) :: t else (s', n) :: mixBump t s

/-- Occurrence count of a source tag in a `source_mix`. -/
def mixCount : List (Str × Nat) → Str → Nat
  | [], _ => 0
  | (s', n) :: t, s => if s' = s then n else mixCount t s

/-- `if link: obj['evidence_links'].add(link)` on the set model: ignore
empty links, ignore links already present, otherwise add the new
element (appended here; where it lands in the list is a modelling
choice, since a Python set orders its elements by hash, and no theorem
relies on the position). -/
def addLink (links : List Str) (link : Str) : List Str :=
  if link.isEmpty then links
  else if link ∈ links then links
  else links ++ [link]

/-- The merge performed per shopping row (`main`, lines 222-228):
brand, model and canonical name are overwritten, the mention count
grows by 2, `source_mix['naver_shop']` by 1, the link is added and a
reason appended. -/
def mergeShop (p : Pool) (k brand model title link reason : Str) : Pool :=
  poolModify p k fun o =>
    { o with
      brand := brand
      model_name := model
      canonical_product_name := title
      mention_count_24h := o.mention_count_24h + 2
      source_mix := mixBump o.source_mix ("naver_shop".toList)
      evidence_links := addLink o.evidence_links link
      issue_reasons := o.issue_reasons ++ [reason] }

/-- The merge performed per news row matching an existing key
(`main`, lines 244-249). -/
def mergeNews (p : Pool) (k link reason : Str) : Pool :=
  poolModify p k fun o =>
    { o with
      mention_count_24h := o.mention_count_24h + 2
      source_mix := mixBump o.source_mix ("naver_news".toList)
      evidence_links := addLink o.evidence_links link
      issue_reasons := o.issue_reasons ++ [reason] }

/-- The merge performed per celebrity-context row (`main`, lines
276-285): like the shopping merge but with the row's source tag
(`naver_news` or `naver_blog`) and a first-write-wins canonical name. -/
def mergeCeleb (p : Pool) (k brand model link reason src : Str) : Pool :=
  poolModify p k fun o =>
    { o with
      brand := brand
      model_name := model
      canonical_product_name :=
        if o.canonical_product_name.isEmpty then brand ++ ' ' :: model
        else o.canonical_product_name
      mention_count_24h := o.mention_count_24h + 2
      source_mix := mixBump o.source_mix src
      evidence_links := addLink o.evidence_links link
      issue_reasons := o.issue_reasons ++ [reason] }

/-- A merge step of either kind, for stating pool invariants over
arbitrary merge sequences. -/
inductive MergeOp where
  | shop (k brand model title link reason : Str)
  | celeb (k brand model link reason src : Str)
  | news (k link reason : Str)

/-- Apply one merge step. -/
def applyOp (p : Pool) : MergeOp → Pool
  | .shop k brand model title link reason => mergeShop p k brand model title link reason
  | .celeb k brand model link reason src => mergeCeleb p k brand model link reason src
  | .news k link reason => mergeNews p k link reason

/-- Run a sequence of merge steps on the empty pool (each run starts
with an empty pool). -/
def runOps (ops : List MergeOp) : Pool :=
  ops.foldl applyOp []

/-- Round-half-even on rationals, Python's `round` to an integer. -/
def rhe (x : ℚ) : ℤ :=
  if x - ⌊x⌋ < 1 / 2 then ⌊x⌋
  else if 1 / 2 < x - ⌊x⌋ then ⌊x⌋ + 1
  else if ⌊x⌋ % 2 = 0 then ⌊x⌋ else ⌊x⌋ + 1

/-- Python's `round(x, 1)`. -/
def round1 (x : ℚ) : ℚ :=
  (rhe (x * 10) : ℚ) / 10

/-- One output item of the final document (`main`, lines 326-337). -/
structure OutItem where
  entity_key : Str
  brand : Str
  model_name : Str
  canonical_product_name : Str
  mention_count_24h : Nat
  score : ℚ
  evidence_links : List Str
  source_mix : List (Str × Nat)
deriving DecidableEq

/-- The score of a record at emission time (`main`, line 324):
`min(100, 45 + mentions*7 + distinct_sources*5 + model_quality*8)`. -/
def entityScore (o : ERec) : ℚ :=
  min 100 (45 + (o.mention_count_24h : ℚ) * 7 + (o.source_mix.length : ℚ) * 5
    + model_quality o.model_name * 8)

/-- The emission loop (`main`, lines 320-337): records with fewer than
2 mentions are skipped; the others become output items with a rounded
score and the evidence links truncated to 6. -/
def emitItems (p : Pool) : List OutItem :=
  p.filterMap fun ko =>
    if ko.2.mention_count_24h < 2 then none
    else some
      { entity_key := ko.1
        brand := ko.2.brand
        model_name := ko.2.model_name
        canonical_product_name := ko.2.canonical_product_name
        mention_count_24h := ko.2.mention_count_24h
        score := round1 (entityScore ko.2)
        evidence_links := ko.2.evidence_links.take 6
        source_mix := ko.2.source_mix }

/-- `x` sorts strictly below `y` for the ranking key
`(score, mention_count_24h)`. -/
def keyLtB (x y : OutItem) : Bool :=
  x.score < y.score || (x.score = y.score && x.mention_count_24h < y.mention_count_24h)

/-- Stable descending insertion: `x` goes after every element strictly
above it, and after equal elements already present (Python's `sorted`
with `reverse=True` is stable). -/
def insertDesc (x : OutItem) : List OutItem → List OutItem
  | [] => [x]
  | y :: t => if keyLtB x y then y :: insertDesc x t else x :: y :: t

/-- Stable descending sort by `(score, mention_count_24h)`, the model
of `sorted(items, key=lambda x: (x['score'], x['mention_count_24h']),
reverse=True)`. -/
def sortDesc : List OutItem → List OutItem
  | [] => []
  | x :: t => insertDesc x (sortDesc t)

/-- The final output list (`main`, line 339): eligible records sorted
descending and truncated to the top `n`. -/
def finalItems (p : Pool) (n : Nat) : List OutItem :=
  (sortDesc (emitItems p)).take n

/-- `x` ranks at least as high as `y`: strictly higher score, or equal
score and at least the mention count. -/
def keyGe (x y : OutItem) : Prop :=
  y.score < x.score ∨ (x.score = y.score ∧ y.mention_count_24h ≤ x.mention_count_24h)

/-- Items carrying exactly the ranking key `(q, mn)`. -/
def sameKeyB (q : ℚ) (mn : Nat) (it : OutItem) : Bool :=
  decide (it.score = q) && decide (it.mention_count_24h = mn)

end EFC

namespace LC

/-- Characters kept by `live_collect.normalize_text`'s class
`[^0-9A-Za-z가-힣\s]` (note: unlike the other collector, hyphen and
plus are not kept). -/
def lcAllowed (c : Char) : Bool :=
  pyIsDigit c || isAsciiLetter c || isHangul c || pyIsSpace c

/-- The character replacement step of `normalize_text`. -/
def lcRepl (c : Char) : Char :=
  if lcAllowed c then c else ' '

/-- `live_collect.normalize_text`: replace `[...]` and `(...)` spans by
a space, replace characters outside `[0-9A-Za-z가-힣\s]` by spaces,
collapse whitespace runs, and strip. -/
def normalize_text (s : Str) : Str :=
  pyStrip (collapseWs false ((blankDelim '(' ')' (blankDelim '[' ']' s)).map lcRepl))

/-- One category's rule set: `hints` and `brands` substring lists. -/
structure CatCfg where
  hints : List Str
  brands : List Str

/-- The score a category accumulates on a normalized text
(`detect_category`, lines 79-85): +2 per hint substring, +1 per brand
substring. -/
def catScore (text : Str) (cfg : CatCfg) : Nat :=
  cfg.brands.foldl (fun s b => if strContains text b then s + 1 else s)
    (cfg.hints.foldl (fun s h => if strContains text h then s + 2 else s) 0)

/-- The default category `"기타"`. -/
def giTa : Str :=
  "기타".toList

/-- One step of `detect_category`'s loop: a later category replaces the
current best only with a strictly greater score. -/
def bestStep (text : Str) (best : Str × Nat) (p : Str × CatCfg) : Str × Nat :=
  if best.2 < catScore text p.2 then (p.1, catScore text p.2) else best

/-- `detect_category`: fold over the rules keeping the best
`(category, score)` pair, starting from `("기타", 0)`. -/
def detect_category (name : Str) (rules : List (Str × CatCfg)) : Str :=
  (rules.foldl (bestStep (normalize_text name)) (giTa, 0)).1

/-- The item score of `build_items` (lines 604-605):
`max(0, min(100, round(48 + c*10 + n_ratio*0.25 + pl*12, 1)))`,
as a function of the accumulated weight `c`, the DataLab weight and the
product likelihood. -/
def liveItemScore (c nr pl : ℚ) : ℚ :=
  max 0 (min 100 (EFC.round1 (48 + c * 10 + nr * (1 / 4) + pl * 12)))

end LC

/-- Well-formedness of whitespace in collapsed text: every whitespace
character is a plain ASCII space and no two adjacent characters are
both whitespace.  This is the shape `collapseWs` produces and on which
it acts as the identity. -/
def SpacedOk (l : Str) : Prop :=
  (∀ c ∈ l, pyIsSpace c = true → c = ' ')
  ∧ List.Chain' (fun a b => ¬(pyIsSpace a = true ∧ pyIsSpace b = true)) l

open EFC LC

/-! ### Character-class facts -/

theorem not_alpha_and_digit (c : Char) : ¬(pyIsAlpha c = true ∧ pyIsDigit c = true) := by
  simp only [pyIsAlpha, isAsciiLetter, isUpperAZ, isLowerAZ, isHangul, pyIsDigit,
    Bool.or_eq_true, Bool.and_eq_true, decide_eq_true_eq]
  omega

/-! ### `model_quality` facts -/

theorem model_quality_nonneg (m : Str) : 0 ≤ model_quality m := by
  unfold model_quality
  split_ifs <;> norm_num

theorem model_quality_le (m : Str) : model_quality m ≤ 9 / 10 := by
  unfold model_quality
  split_ifs <;> norm_num

theorem model_quality_digit (m : Str) (h : ¬(model_quality m < 11 / 20)) :
    m.any pyIsDigit = true := by
  unfold model_quality at h
  split_ifs at h with h1 h2 h3
  · norm_num at h
  · exact ((Bool.and_eq_true _ _).mp h2).2
  · exact ((Bool.and_eq_true _ _).mp h3).1
  · norm_num at h

theorem model_quality_lt_of_alpha (m : Str) (h : m.all pyIsAlpha = true) :
    model_quality m < 11 / 20 := by
  have hd : m.any pyIsDigit = false := by
    rw [List.any_eq_false]
    intro c hc hdig
    exact not_alpha_and_digit c ⟨List.all_eq_true.mp h c hc, hdig⟩
  unfold model_quality
  split_ifs with h1 h2 h3
  · norm_num
  · rw [hd] at h2
    simp at h2
  · rw [hd] at h3
    simp at h3
  · norm_num

/-- C5: `valid_entity` rejects every candidate whose model scores below
the 0.55 quality threshold; in particular a purely alphabetic model
(quality 0.3) and an empty model are always rejected. -/
theorem claim5_thm (b m : Str) :
    (model_quality m < 11 / 20 → valid_entity b m = false)
    ∧ (m.all pyIsAlpha = true → valid_entity b m = false)
    ∧ (m = [] → valid_entity b m = false) := by
  have key : model_quality m < 11 / 20 → valid_entity b m = false := by
    intro h
    unfold valid_entity
    split_ifs <;> rfl
  refine ⟨key, fun h => key (model_quality_lt_of_alpha m h), fun h => ?_⟩
  subst h
  unfold valid_entity
  simp

/-- Witness for C5 at a concrete purely-alphabetic model. -/
theorem claim5_witness :
    ("그램".toList.all pyIsAlpha = true)
    ∧ valid_entity "삼성".toList "그램".toList = false :=
  ⟨by decide, (claim5_thm ("삼성".toList) ("그램".toList)).2.1 (by decide)⟩

/-- C10 (implicit): a candidate accepted by `valid_entity` has a model
containing at least one digit and at least one non-digit character. -/
theorem claim10_thm (b m : Str) (h : valid_entity b m = true) :
    (∃ c ∈ m, pyIsDigit c = true) ∧ ∃ c ∈ m, pyIsDigit c = false := by
  unfold valid_entity at h
  split_ifs at h with h1 h2 h3 h4 h5 h6 h7
  constructor
  · obtain ⟨c, hc, hcd⟩ := List.any_eq_true.mp (model_quality_digit m h7)
    exact ⟨c, hc, hcd⟩
  · have h1' : m.isEmpty = false := by
      rcases Bool.or_eq_false_iff.mp (Bool.eq_false_iff.mpr h1) with ⟨-, hm⟩
      exact hm
    have h4' : pyIsDigitStr m = false := Bool.eq_false_iff.mpr h4
    unfold pyIsDigitStr at h4'
    rw [h1'] at h4'
    simp only [Bool.not_false, Bool.true_and] at h4'
    obtain ⟨c, hc, hcd⟩ := List.all_eq_false.mp h4'
    exact ⟨c, hc, Bool.eq_false_iff.mpr hcd⟩

/-- Evaluation helper: the quality of a model with both a letter and a
digit is 0.9 (kernel evaluation of `ℚ` is avoided by rewriting). -/
theorem model_quality_ad (m : Str) (h1 : m.isEmpty = false)
    (h2 : (m.any pyIsAlpha && m.any pyIsDigit) = true) : model_quality m = 9 / 10 := by
  simp [model_quality, h1, h2]

/-- Evaluation helper: `valid_entity` returns `true` when every
rejection rule fails. -/
theorem valid_entity_eq_true (b m : Str)
    (h1 : (b.isEmpty || m.isEmpty) = false)
    (h2 : (NOISE.any fun n => strContains b n) = false)
    (h3 : (NOISE.any fun n => strContains m n) = false)
    (h4 : pyIsDigitStr m = false)
    (h5 : ¬(m ∈ MODEL_STOP ∨ m ∈ MODEL_BLACKLIST))
    (h6 : ¬(m = pyUpper b))
    (h7 : ¬(model_quality m < 11 / 20)) : valid_entity b m = true := by
  simp [valid_entity, h1, h2, h3, h4, h5, h6, h7]

/-- Witness for C10 at a concrete accepted candidate. -/
theorem claim10_witness :
    (∃ c ∈ "X90".toList, pyIsDigit c = true)
    ∧ ∃ c ∈ "X90".toList, pyIsDigit c = false :=
  claim10_thm ("삼성".toList) ("X90".toList)
    (valid_entity_eq_true _ _ (by decide) (by decide) (by decide) (by decide) (by decide)
      (by decide)
      (by rw [model_quality_ad ("X90".toList) (by decide) (by decide)]; norm_num))

/-- Counterexample to C1 as stated: on the title
`"삼성 BESPOKE 냉장고 RF85"` the extraction pipeline does not select
`RF85` — the model comes out empty (so no entity key is produced),
because `extract_model` returns the leftmost first-pattern match
`BESPOKE`, which `normalize_model` erases. -/
theorem claim1_cex :
    candidateOfTitle ("삼성 BESPOKE 냉장고 RF85".toList) = ("삼성".toList, [])
    ∧ ¬((candidateOfTitle ("삼성 BESPOKE 냉장고 RF85".toList)).2 = "RF85".toList)
    ∧ valid_entity ("삼성".toList) [] = false
    ∧ entity_key ("삼성".toList) [] = [] := by
  decide

/-- C1 (amended): on the title `"삼성 BESPOKE 냉장고 RF85"` the brand
resolves to `삼성`; `extract_model` returns `BESPOKE` (the leftmost
match of the first pattern), which is rejected via the `MODEL_STOP`
deny-list, so the candidate's model is empty and `valid_entity` rejects
it — no entity key is produced; `RF85` (which would score quality 0.9)
is never reached. -/
theorem claim1_thm :
    detect_brand ("삼성 BESPOKE 냉장고 RF85".toList) = "삼성".toList
    ∧ extract_model ("삼성 BESPOKE 냉장고 RF85".toList) = "BESPOKE".toList
    ∧ "BESPOKE".toList ∈ MODEL_STOP
    ∧ normalize_model ("BESPOKE".toList) ("삼성".toList) = []
    ∧ model_quality ("RF85".toList) = 9 / 10
    ∧ candidateOfTitle ("삼성 BESPOKE 냉장고 RF85".toList) = ("삼성".toList, [])
    ∧ valid_entity ("삼성".toList) [] = false := by
  refine ⟨by decide, by decide, by decide, by decide, ?_, by decide, by decide⟩
  exact model_quality_ad ("RF85".toList) (by decide) (by decide)

/-! ### Pool-merge facts -/

theorem poolLookup_poolModify_self (p : Pool) (k : Str) (f : ERec → ERec) :
    poolLookup (poolModify p k f) k = some (f (poolGetD p k)) := by
  induction p with
  | nil => simp [poolModify, poolLookup, poolGetD]
  | cons pr t ih =>
    obtain ⟨k', o⟩ := pr
    by_cases hk : k' = k
    · simp [poolModify, poolLookup, poolGetD, hk]
    · simp [poolModify, poolLookup, poolGetD, hk, ih]

theorem poolGetD_poolModify_self (p : Pool) (k : Str) (f : ERec → ERec) :
    poolGetD (poolModify p k f) k = f (poolGetD p k) := by
  simp [poolGetD, poolLookup_poolModify_self]

theorem mixCount_pair_comm (a b : Str) (na nb : Nat) (hab : ¬(a = b)) (s : Str) :
    mixCount [(a, na), (b, nb)] s = mixCount [(b, nb), (a, na)] s := by
  by_cases h1 : a = s <;> by_cases h2 : b = s
  · exact absurd (h1.trans h2.symm) hab
  · simp [mixCount, h1, h2]
  · simp [mixCount, h1, h2]
  · simp [mixCount, h1, h2]

theorem mixCount_mixBump_self (mix : List (Str × Nat)) (s : Str) :
    mixCount (mixBump mix s) s = mixCount mix s + 1 := by
  induction mix with
  | nil => simp [mixBump, mixCount]
  | cons pr t ih =>
    obtain ⟨s', n⟩ := pr
    by_cases h : s' = s <;> simp [mixBump, mixCount, h, ih]

/-- C8 (amended): once a record exists, the celebrity-context merge
leaves a non-empty `canonical_product_name` unchanged (first-write
wins) while mention count and source mix keep accumulating, but the
shopping merge overwrites `canonical_product_name` with the incoming
row's title (last-write wins). -/
theorem claim8_thm (p : Pool) (k b2 m2 l2 r2 src b m title link r : Str) (o : ERec)
    (h : poolLookup p k = some o) :
    (o.canonical_product_name ≠ [] →
      ∃ o', poolLookup (mergeCeleb p k b2 m2 l2 r2 src) k = some o'
        ∧ o'.canonical_product_name = o.canonical_product_name
        ∧ o'.mention_count_24h = o.mention_count_24h + 2
        ∧ mixCount o'.source_mix src = mixCount o.source_mix src + 1)
    ∧ ∃ o'', poolLookup (mergeShop p k b m title link r) k = some o''
        ∧ o''.canonical_product_name = title
        ∧ o''.mention_count_24h = o.mention_count_24h + 2 := by
  have hget : poolGetD p k = o := by simp [poolGetD, h]
  constructor
  · intro hc
    unfold mergeCeleb
    rw [poolLookup_poolModify_self, hget]
    have hce : o.canonical_product_name.isEmpty = false := by
      simpa [List.isEmpty_iff] using hc
    exact ⟨_, rfl, by simp [hce], rfl, mixCount_mixBump_self _ _⟩
  · unfold mergeShop
    rw [poolLookup_poolModify_self, hget]
    exact ⟨_, rfl, rfl, rfl⟩

/-- Counterexample to C8 as stated: two shopping rows with the same key
but different titles — the second merge replaces the canonical product
name, so it is not first-write-wins. -/
theorem claim8_cex :
    (poolGetD
        (mergeShop (mergeShop [] ("k".toList) ("b".toList) ("m".toList) ("t1".toList)
          ("l1".toList) ("r1".toList))
          ("k".toList) ("b".toList) ("m".toList) ("t2".toList) ("l2".toList) ("r2".toList))
        ("k".toList)).canonical_product_name = "t2".toList
    ∧ ¬("t2".toList = ("t1".toList : Str)) := by
  decide

/-- Witness for C8 at a concrete pool holding one record. -/
theorem claim8_witness :
    ∃ o'', poolLookup
        (mergeShop
          (mergeShop [] ("k".toList) ("b".toList) ("m".toList) ("t1".toList) ("l1".toList)
            ("r1".toList))
          ("k".toList) ("b".toList) ("m".toList) ("t2".toList) ("l2".toList) ("r2".toList))
        ("k".toList) = some o''
      ∧ o''.canonical_product_name = "t2".toList
      ∧ o''.mention_count_24h =
          (⟨"b".toList, "m".toList, "t1".toList, 2, [("naver_shop".toList, 1)],
            ["l1".toList], ["r1".toList]⟩ : ERec).mention_count_24h + 2 :=
  (claim8_thm
    (mergeShop [] ("k".toList) ("b".toList) ("m".toList) ("t1".toList) ("l1".toList)
      ("r1".toList))
    ("k".toList) ("b2".toList) ("m2".toList) ("l2".toList) ("r2".toList) ("s".toList)
    ("b".toList) ("m".toList) ("t2".toList) ("l2".toList) ("r2".toList)
    ⟨"b".toList, "m".toList, "t1".toList, 2, [("naver_shop".toList, 1)], ["l1".toList],
      ["r1".toList]⟩ (by decide)).2

/-- C4: two rows with distinct source tags (one shopping row, one news
row) validating to the same key, merged into an empty pool in either
order, produce a record with exactly two `source_mix` entries and a
mention count equal to the sum of the two sources' weights (2 + 2);
the mention count and the per-source totals do not depend on the
order. -/
theorem claim4_thm (k b m t1 l1 l2 r1 r2 : Str)
    (hv : valid_entity b m = true) (hk : k = entity_key b m) :
    (poolGetD (mergeNews (mergeShop [] k b m t1 l1 r1) k l2 r2) k).mention_count_24h = 2 + 2
    ∧ (poolGetD (mergeNews (mergeShop [] k b m t1 l1 r1) k l2 r2) k).source_mix.length = 2
    ∧ (poolGetD (mergeShop (mergeNews [] k l2 r2) k b m t1 l1 r1) k).mention_count_24h
        = (poolGetD (mergeNews (mergeShop [] k b m t1 l1 r1) k l2 r2) k).mention_count_24h
    ∧ ∀ s, mixCount (poolGetD (mergeNews (mergeShop [] k b m t1 l1 r1) k l2 r2) k).source_mix s
        = mixCount (poolGetD (mergeShop (mergeNews [] k l2 r2) k b m t1 l1 r1) k).source_mix s := by
  have hA : poolGetD (mergeNews (mergeShop [] k b m t1 l1 r1) k l2 r2) k
      = { brand := b, model_name := m, canonical_product_name := t1,
          mention_count_24h := 4,
          source_mix := [("naver_shop".toList, 1), ("naver_news".toList, 1)],
          evidence_links := addLink (addLink [] l1) l2,
          issue_reasons := [r1, r2] } := by
    unfold mergeNews mergeShop
    rw [poolGetD_poolModify_self, poolGetD_poolModify_self]
    rfl
  have hB : poolGetD (mergeShop (mergeNews [] k l2 r2) k b m t1 l1 r1) k
      = { brand := b, model_name := m, canonical_product_name := t1,
          mention_count_24h := 4,
          source_mix := [("naver_news".toList, 1), ("naver_shop".toList, 1)],
          evidence_links := addLink (addLink [] l2) l1,
          issue_reasons := [r2, r1] } := by
    unfold mergeNews mergeShop
    rw [poolGetD_poolModify_self, poolGetD_poolModify_self]
    rfl
  rw [hA, hB]
  exact ⟨rfl, rfl, rfl, fun s => mixCount_pair_comm _ _ _ _ (by decide) s⟩

/-- Witness for C4 at a concrete validated candidate. -/
theorem claim4_witness :
    (poolGetD
        (mergeNews
          (mergeShop [] ("삼성|X90".toList) ("삼성".toList) ("X90".toList) ("t".toList)
            ("l1".toList) ("r1".toList))
          ("삼성|X90".toList) ("l2".toList) ("r2".toList))
        ("삼성|X90".toList)).mention_count_24h = 2 + 2 :=
  (claim4_thm ("삼성|X90".toList) ("삼성".toList) ("X90".toList) ("t".toList) ("l1".toList)
    ("l2".toList) ("r1".toList) ("r2".toList)
    (valid_entity_eq_true _ _ (by decide) (by decide) (by decide) (by decide) (by decide)
      (by decide)
      (by rw [model_quality_ad ("X90".toList) (by decide) (by decide)]; norm_num))
    (by decide)).1

/-! ### Category-classification facts -/

theorem foldl_if_add (k : Nat) (p : Str → Bool) (l : List Str) (a : Nat) :
    l.foldl (fun s h => if p h then s + k else s) a = a + k * l.countP p := by
  induction l generalizing a with
  | nil => simp
  | cons x t ih =>
    rw [List.foldl_cons]
    by_cases hx : p x = true
    · rw [if_pos hx, ih, List.countP_cons, if_pos hx]
      ring
    · rw [if_neg hx, ih, List.countP_cons, if_neg hx]
      ring

theorem bestFold_spec (text : Str) (l : List (Str × CatCfg)) (acc : Str × Nat) :
    (l.foldl (bestStep text) acc = acc ∧ ∀ p ∈ l, catScore text p.2 ≤ acc.2)
    ∨ ∃ l1 p l2, l = l1 ++ p :: l2
        ∧ l.foldl (bestStep text) acc = (p.1, catScore text p.2)
        ∧ acc.2 < catScore text p.2
        ∧ (∀ q ∈ l1, catScore text q.2 < catScore text p.2)
        ∧ ∀ q ∈ l2, catScore text q.2 ≤ catScore text p.2 := by
  induction l generalizing acc with
  | nil => exact Or.inl ⟨rfl, by simp⟩
  | cons p t ih =>
    by_cases hp : acc.2 < catScore text p.2
    · have hstep : bestStep text acc p = (p.1, catScore text p.2) := by
        simp [bestStep, hp]
      rcases ih (p.1, catScore text p.2) with ⟨heq, hall⟩ | ⟨l1, q, l2, hsplit, heq, hacc, hl1, hl2⟩
      · refine Or.inr ⟨[], p, t, rfl, ?_, hp, ?_, fun q hq => hall q hq⟩
        · rw [List.foldl_cons, hstep]
          exact heq
        · intro q hq
          exact absurd hq (List.not_mem_nil q)
      · refine Or.inr ⟨p :: l1, q, l2, by simp [hsplit], ?_, ?_, ?_, hl2⟩
        · rw [List.foldl_cons, hstep]
          exact heq
        · exact lt_trans hp hacc
        · intro r hr
          rcases List.mem_cons.mp hr with rfl | hr
          · exact hacc
          · exact hl1 r hr
    · have hstep : bestStep text acc p = acc := by
        simp [bestStep, hp]
      rcases ih acc with ⟨heq, hall⟩ | ⟨l1, q, l2, hsplit, heq, hacc, hl1, hl2⟩
      · refine Or.inl ⟨?_, ?_⟩
        · rw [List.foldl_cons, hstep]
          exact heq
        · intro r hr
          rcases List.mem_cons.mp hr with rfl | hr
          · exact Nat.le_of_not_lt hp
          · exact hall r hr
      · refine Or.inr ⟨p :: l1, q, l2, by simp [hsplit], ?_, hacc, ?_, hl2⟩
        · rw [List.foldl_cons, hstep]
          exact heq
        · intro r hr
          rcases List.mem_cons.mp hr with rfl | hr
          · exact lt_of_le_of_lt (Nat.le_of_not_lt hp) hacc
          · exact hl1 r hr

/-- C7 (amended): classification accumulates +2 per hint substring and
+1 per brand substring of the normalized text; when every category
scores zero the default `기타` is returned; and whenever some category
scores positive, the result is exactly the first category (in rule
order) attaining the maximal score — so for every rule set, a tie for
the highest positive score is won by the earlier category, not by
`기타`. -/
theorem claim7_thm (name : Str) (rules : List (Str × CatCfg)) :
    (∀ t cfg, catScore t cfg
        = 2 * cfg.hints.countP (strContains t)
          + cfg.brands.countP (strContains t))
    ∧ ((∀ p ∈ rules, catScore (normalize_text name) p.2 = 0) →
        detect_category name rules = giTa)
    ∧ ((∃ p ∈ rules, 0 < catScore (normalize_text name) p.2) →
        ∃ l1 p l2, rules = l1 ++ p :: l2
            ∧ detect_category name rules = p.1
            ∧ 0 < catScore (normalize_text name) p.2
            ∧ (∀ q ∈ l1,
                catScore (normalize_text name) q.2 < catScore (normalize_text name) p.2)
            ∧ ∀ q ∈ l2,
                catScore (normalize_text name) q.2 ≤ catScore (normalize_text name) p.2) := by
  refine ⟨?_, ?_, ?_⟩
  · intro t cfg
    unfold catScore
    rw [foldl_if_add, foldl_if_add]
    omega
  · intro hz
    rcases bestFold_spec (normalize_text name) rules (giTa, 0) with
      ⟨heq, -⟩ | ⟨l1, p, l2, hsplit, heq, hacc, -, -⟩
    · unfold detect_category
      rw [heq]
    · have hp : p ∈ rules := by
        rw [hsplit]
        exact List.mem_append_right _ (List.mem_cons_self _ _)
      rw [hz p hp] at hacc
      simp at hacc
  · intro hpos
    rcases bestFold_spec (normalize_text name) rules (giTa, 0) with
      ⟨-, hall⟩ | ⟨l1, p, l2, hsplit, heq, hacc, hl1, hl2⟩
    · obtain ⟨p0, hp0, hp0pos⟩ := hpos
      have := hall p0 hp0
      omega
    · refine ⟨l1, p, l2, hsplit, ?_, hacc, hl1, hl2⟩
      unfold detect_category
      rw [heq]

/-- Witness for C7, exercising both branches: with no rules every score
is zero and the default category is returned; on the two-category tie
rule set the characterization places the winning category explicitly. -/
theorem claim7_witness :
    detect_category ("청소기".toList) [] = giTa
    ∧ ∃ l1 p l2,
        ([(("가전").toList, (⟨["청소기".toList], []⟩ : CatCfg)),
          (("주방").toList, (⟨["청소기".toList], []⟩ : CatCfg))] : List (Str × CatCfg))
          = l1 ++ p :: l2
        ∧ detect_category ("로봇청소기".toList)
            [(("가전").toList, (⟨["청소기".toList], []⟩ : CatCfg)),
             (("주방").toList, (⟨["청소기".toList], []⟩ : CatCfg))] = p.1
        ∧ 0 < catScore (normalize_text ("로봇청소기".toList)) p.2
        ∧ (∀ q ∈ l1,
            catScore (normalize_text ("로봇청소기".toList)) q.2
              < catScore (normalize_text ("로봇청소기".toList)) p.2)
        ∧ ∀ q ∈ l2,
            catScore (normalize_text ("로봇청소기".toList)) q.2
              ≤ catScore (normalize_text ("로봇청소기".toList)) p.2 :=
  ⟨(claim7_thm ("청소기".toList) []).2.1 fun p hp => absurd hp (List.not_mem_nil p),
   (claim7_thm ("로봇청소기".toList) _).2.2
     ⟨(("가전").toList, (⟨["청소기".toList], []⟩ : CatCfg)),
      List.mem_cons_self _ _, by decide⟩⟩

/-- Counterexample to C7 as stated: two categories tie for the highest
score on `로봇청소기`, and the first one (`가전`) is returned rather
than the claimed default `기타`. -/
theorem claim7_cex :
    detect_category ("로봇청소기".toList)
        [("가전".toList, ⟨["청소기".toList], []⟩), ("주방".toList, ⟨["청소기".toList], []⟩)]
      = "가전".toList
    ∧ catScore (normalize_text ("로봇청소기".toList)) ⟨["청소기".toList], []⟩ = 2
    ∧ ¬("가전".toList = giTa) := by
  decide

/-! ### Rounding and score bounds -/

theorem rhe_nonneg (x : ℚ) (h : 0 ≤ x) : 0 ≤ rhe x := by
  unfold rhe
  have hf : (0 : ℤ) ≤ ⌊x⌋ := Int.floor_nonneg.mpr h
  split_ifs <;> omega

theorem rhe_le (x : ℚ) (B : ℤ) (h : x ≤ B) : rhe x ≤ B := by
  unfold rhe
  have hfB : ⌊x⌋ ≤ B := by
    have := Int.floor_le_floor h
    simpa using this
  have key : ¬(x - ⌊x⌋ < 1 / 2) → ⌊x⌋ + 1 ≤ B := by
    intro h1
    have hh : (1 : ℚ) / 2 ≤ x - ⌊x⌋ := not_lt.mp h1
    have hlt : (⌊x⌋ : ℚ) < x := by linarith
    have hxB : (⌊x⌋ : ℚ) < (B : ℚ) := lt_of_lt_of_le hlt h
    have : ⌊x⌋ < B := by exact_mod_cast hxB
    omega
  split_ifs with h1 h2 h3
  · exact hfB
  · exact key h1
  · exact hfB
  · exact key h1

theorem round1_bounds (x : ℚ) (h0 : 0 ≤ x) (h100 : x ≤ 100) :
    0 ≤ round1 x ∧ round1 x ≤ 100 := by
  unfold round1
  constructor
  · have h1 := rhe_nonneg (x * 10) (by linarith)
    have h2 : (0 : ℚ) ≤ (rhe (x * 10) : ℚ) := by exact_mod_cast h1
    exact div_nonneg h2 (by norm_num)
  · have h1 : rhe (x * 10) ≤ (1000 : ℤ) := rhe_le (x * 10) 1000 (by push_cast; linarith)
    have h2 : (rhe (x * 10) : ℚ) ≤ 1000 := by exact_mod_cast h1
    rw [div_le_iff (by norm_num : (0 : ℚ) < 10)]
    linarith

theorem entityScore_bounds (o : ERec) : 0 ≤ entityScore o ∧ entityScore o ≤ 100 := by
  unfold entityScore
  constructor
  · apply le_min (by norm_num)
    have h1 : (0 : ℚ) ≤ (o.mention_count_24h : ℚ) := Nat.cast_nonneg _
    have h2 : (0 : ℚ) ≤ (o.source_mix.length : ℚ) := Nat.cast_nonneg _
    have h3 := model_quality_nonneg o.model_name
    linarith
  · exact min_le_left _ _

/-! ### Membership in the emitted output -/

theorem mem_insertDesc {x a : OutItem} {l : List OutItem} :
    a ∈ insertDesc x l ↔ a = x ∨ a ∈ l := by
  induction l with
  | nil => simp [insertDesc]
  | cons y t ih =>
    unfold insertDesc
    by_cases h : keyLtB x y = true
    · rw [if_pos h]
      simp only [List.mem_cons, ih]
      tauto
    · rw [if_neg h]
      simp only [List.mem_cons]

theorem mem_sortDesc {a : OutItem} {l : List OutItem} : a ∈ sortDesc l ↔ a ∈ l := by
  induction l with
  | nil => simp [sortDesc]
  | cons x t ih =>
    show a ∈ insertDesc x (sortDesc t) ↔ _
    rw [mem_insertDesc, ih]
    simp

theorem mem_emitItems {p : Pool} {it : OutItem} (h : it ∈ emitItems p) :
    2 ≤ it.mention_count_24h
    ∧ ∃ o : ERec, it.score = round1 (entityScore o)
        ∧ it.evidence_links = o.evidence_links.take 6
        ∧ ∃ k, (k, o) ∈ p := by
  unfold emitItems at h
  obtain ⟨ko, hko, hmk⟩ := List.mem_filterMap.mp h
  by_cases hlt : ko.2.mention_count_24h < 2
  · rw [if_pos hlt] at hmk
    cases hmk
  · rw [if_neg hlt] at hmk
    obtain rfl := Option.some.inj hmk
    exact ⟨Nat.le_of_not_lt hlt, ko.2, rfl, rfl, ko.1, by simpa using hko⟩

/-- C2: every item in the final output has a mention count of at least
2 and a score in [0, 100]; records with fewer than 2 accumulated
mentions are never emitted (the emitted mention count is copied from
the record).  The `build_items` score of the other collector is likewise
clamped to [0, 100]. -/
theorem claim2_thm (p : Pool) (n : Nat) (it : OutItem) :
    (it ∈ finalItems p n →
      2 ≤ it.mention_count_24h ∧ 0 ≤ it.score ∧ it.score ≤ 100)
    ∧ ∀ c nr pl : ℚ, 0 ≤ liveItemScore c nr pl ∧ liveItemScore c nr pl ≤ 100 := by
  constructor
  · intro h
    have h1 : it ∈ sortDesc (emitItems p) := List.take_subset _ _ h
    have h2 : it ∈ emitItems p := mem_sortDesc.mp h1
    obtain ⟨hm, o, hsc, -, -⟩ := mem_emitItems h2
    obtain ⟨hb1, hb2⟩ := entityScore_bounds o
    obtain ⟨hr1, hr2⟩ := round1_bounds _ hb1 hb2
    exact ⟨hm, by rw [hsc]; exact hr1, by rw [hsc]; exact hr2⟩
  · intro c nr pl
    unfold liveItemScore
    exact ⟨le_max_left _ _, max_le (by norm_num) (min_le_left _ _)⟩

/-- Witness for C2 on a one-record pool built by a shopping merge. -/
theorem claim2_witness :
    0 ≤ round1 (entityScore ⟨"삼성".toList, "X90".toList, "t".toList, 2,
        [("naver_shop".toList, 1)], ["l".toList], ["r".toList]⟩)
    ∧ round1 (entityScore ⟨"삼성".toList, "X90".toList, "t".toList, 2,
        [("naver_shop".toList, 1)], ["l".toList], ["r".toList]⟩) ≤ 100 :=
  ((claim2_thm
      (mergeShop [] ("삼성|X90".toList) ("삼성".toList) ("X90".toList) ("t".toList)
        ("l".toList) ("r".toList)) 1
      { entity_key := "삼성|X90".toList, brand := "삼성".toList, model_name := "X90".toList,
        canonical_product_name := "t".toList, mention_count_24h := 2,
        score := round1 (entityScore ⟨"삼성".toList, "X90".toList, "t".toList, 2,
          [("naver_shop".toList, 1)], ["l".toList], ["r".toList]⟩),
        evidence_links := ["l".toList],
        source_mix := [("naver_shop".toList, 1)] }).1
    (List.mem_singleton_self _)).2

/-! ### Ranking: order, stability, truncation -/

theorem keyGe_of_not_ltB {x y : OutItem} (h : keyLtB x y = false) : keyGe x y := by
  unfold keyLtB at h
  rcases Bool.or_eq_false_iff.mp h with ⟨h1, h2⟩
  have h1' : ¬ x.score < y.score := of_decide_eq_false h1
  by_cases hs : x.score = y.score
  · refine Or.inr ⟨hs, ?_⟩
    rcases Bool.and_eq_false_iff.mp h2 with h3 | h4
    · exact absurd hs (of_decide_eq_false h3)
    · exact Nat.le_of_not_lt (of_decide_eq_false h4)
  · exact Or.inl (lt_of_le_of_ne (le_of_not_lt h1') fun he => hs he.symm)

theorem keyGe_of_ltB {x y : OutItem} (h : keyLtB x y = true) : keyGe y x := by
  unfold keyLtB at h
  rcases Bool.or_eq_true_iff.mp h with h1 | h2
  · exact Or.inl (of_decide_eq_true h1)
  · obtain ⟨hs, hm⟩ := Bool.and_eq_true_iff.mp h2
    exact Or.inr ⟨(of_decide_eq_true hs).symm, Nat.le_of_lt (of_decide_eq_true hm)⟩

theorem keyGe_trans {x y z : OutItem} (h1 : keyGe x y) (h2 : keyGe y z) : keyGe x z := by
  rcases h1 with h1 | ⟨e1, m1⟩ <;> rcases h2 with h2 | ⟨e2, m2⟩
  · exact Or.inl (lt_trans h2 h1)
  · refine Or.inl ?_
    rw [← e2]
    exact h1
  · refine Or.inl ?_
    rw [e1]
    exact h2
  · exact Or.inr ⟨e1.trans e2, le_trans m2 m1⟩

theorem pairwise_insertDesc {x : OutItem} {l : List OutItem}
    (h : l.Pairwise keyGe) : (insertDesc x l).Pairwise keyGe := by
  induction l with
  | nil => simp [insertDesc]
  | cons y t ih =>
    rcases List.pairwise_cons.mp h with ⟨hy, ht⟩
    unfold insertDesc
    by_cases hb : keyLtB x y = true
    · rw [if_pos hb]
      refine List.pairwise_cons.mpr ⟨?_, ih ht⟩
      intro z hz
      rcases mem_insertDesc.mp hz with rfl | hz
      · exact keyGe_of_ltB hb
      · exact hy z hz
    · rw [if_neg hb]
      refine List.pairwise_cons.mpr ⟨?_, List.pairwise_cons.mpr ⟨hy, ht⟩⟩
      intro z hz
      rcases List.mem_cons.mp hz with rfl | hz
      · exact keyGe_of_not_ltB (Bool.eq_false_iff.mpr hb)
      · exact keyGe_trans (keyGe_of_not_ltB (Bool.eq_false_iff.mpr hb)) (hy z hz)

theorem pairwise_sortDesc (l : List OutItem) : (sortDesc l).Pairwise keyGe := by
  induction l with
  | nil => simp [sortDesc]
  | cons x t ih => exact pairwise_insertDesc ih

theorem sameKey_of_ltB (q : ℚ) (mn : Nat) {x y : OutItem}
    (hx : sameKeyB q mn x = true) (hb : keyLtB x y = true) : sameKeyB q mn y = false := by
  unfold sameKeyB at hx ⊢
  obtain ⟨hxs, hxm⟩ := Bool.and_eq_true_iff.mp hx
  have hxs' : x.score = q := of_decide_eq_true hxs
  have hxm' : x.mention_count_24h = mn := of_decide_eq_true hxm
  unfold keyLtB at hb
  rcases Bool.or_eq_true_iff.mp hb with h1 | h2
  · have h1' := of_decide_eq_true h1
    have : ¬(y.score = q) := fun he => absurd h1' (by rw [he, ← hxs']; exact lt_irrefl _)
    rw [decide_eq_false this, Bool.false_and]
  · obtain ⟨hs, hm⟩ := Bool.and_eq_true_iff.mp h2
    have hm' := of_decide_eq_true hm
    have : ¬(y.mention_count_24h = mn) := by omega
    rw [decide_eq_false this, Bool.and_false]

theorem filter_insertDesc (q : ℚ) (mn : Nat) (x : OutItem) (l : List OutItem) :
    (insertDesc x l).filter (sameKeyB q mn) =
      if sameKeyB q mn x then x :: l.filter (sameKeyB q mn)
      else l.filter (sameKeyB q mn) := by
  induction l with
  | nil => simp [insertDesc, List.filter_cons]
  | cons y t ih =>
    unfold insertDesc
    by_cases hb : keyLtB x y = true
    · rw [if_pos hb]
      by_cases hx : sameKeyB q mn x = true
      · have hy := sameKey_of_ltB q mn hx hb
        simp [List.filter_cons, hy, hx, ih]
      · have hx' : sameKeyB q mn x = false := Bool.eq_false_iff.mpr hx
        simp [List.filter_cons, ih, hx']
    · rw [if_neg hb]
      simp [List.filter_cons]

theorem filter_sortDesc (q : ℚ) (mn : Nat) (l : List OutItem) :
    (sortDesc l).filter (sameKeyB q mn) = l.filter (sameKeyB q mn) := by
  induction l with
  | nil => rfl
  | cons x t ih =>
    show (insertDesc x (sortDesc t)).filter _ = _
    rw [filter_insertDesc]
    by_cases hx : sameKeyB q mn x = true
    · rw [if_pos hx, ih, List.filter_cons, if_pos hx]
    · rw [if_neg hx, ih, List.filter_cons, if_neg hx]

theorem length_insertDesc (x : OutItem) (l : List OutItem) :
    (insertDesc x l).length = l.length + 1 := by
  induction l with
  | nil => rfl
  | cons y t ih =>
    unfold insertDesc
    by_cases hb : keyLtB x y = true
    · rw [if_pos hb]
      simp [ih]
    · rw [if_neg hb]
      simp

theorem length_sortDesc (l : List OutItem) : (sortDesc l).length = l.length := by
  induction l with
  | nil => rfl
  | cons x t ih =>
    show (insertDesc x (sortDesc t)).length = _
    rw [length_insertDesc, ih]
    rfl

/-- C6: the final output is the eligible records stably sorted by
`(score, mention_count)` descending and truncated to the top `n`: the
output is pairwise ordered by `keyGe` (so among equal scores the higher
mention count ranks first), items sharing one ranking key keep their
pool insertion order (the sort does not permute them), and the length
is `min n` (number of eligible records). -/
theorem claim6_thm (p : Pool) (n : Nat) (q : ℚ) (mn : Nat) :
    finalItems p n = (sortDesc (emitItems p)).take n
    ∧ (finalItems p n).Pairwise keyGe
    ∧ (sortDesc (emitItems p)).filter (sameKeyB q mn) = (emitItems p).filter (sameKeyB q mn)
    ∧ (finalItems p n).length = min n (emitItems p).length := by
  refine ⟨rfl, ?_, filter_sortDesc q mn _, ?_⟩
  · exact List.Pairwise.sublist (List.take_sublist _ _) (pairwise_sortDesc _)
  · show ((sortDesc (emitItems p)).take n).length = _
    rw [List.length_take, length_sortDesc]

/-! ### Evidence-link invariants -/

theorem addLink_nodup {ls : List Str} (l : Str) (h : ls.Nodup) : (addLink ls l).Nodup := by
  unfold addLink
  split_ifs with h1 h2
  · exact h
  · exact h
  · rw [← List.concat_eq_append]
    exact List.Nodup.concat h2 h

theorem poolModify_pres (P : ERec → Prop) (p : Pool) (k : Str) (f : ERec → ERec)
    (hf : ∀ o, P o → P (f o)) (hd : P (f defaultRec)) :
    (∀ pr ∈ p, P pr.2) → ∀ pr ∈ poolModify p k f, P pr.2 := by
  induction p with
  | nil =>
    intro _ pr hpr
    simp only [poolModify, List.mem_singleton] at hpr
    rw [hpr]
    exact hd
  | cons pr0 t ih =>
    obtain ⟨k', o⟩ := pr0
    intro hp pr hpr
    unfold poolModify at hpr
    by_cases hk : k' = k
    · rw [if_pos hk] at hpr
      rcases List.mem_cons.mp hpr with rfl | hpr
      · exact hf o (hp (k', o) (List.mem_cons_self _ _))
      · exact hp pr (List.mem_cons_of_mem _ hpr)
    · rw [if_neg hk] at hpr
      rcases List.mem_cons.mp hpr with rfl | hpr
      · exact hp (k', o) (List.mem_cons_self _ _)
      · exact ih (fun x hx => hp x (List.mem_cons_of_mem _ hx)) pr hpr

theorem applyOp_nodup (p : Pool) (op : MergeOp)
    (hp : ∀ pr ∈ p, pr.2.evidence_links.Nodup) :
    ∀ pr ∈ applyOp p op, pr.2.evidence_links.Nodup := by
  cases op with
  | shop k b m t l r =>
    exact poolModify_pres _ _ _ _ (fun o ho => addLink_nodup _ ho)
      (addLink_nodup _ List.nodup_nil) hp
  | celeb k b m l r src =>
    exact poolModify_pres _ _ _ _ (fun o ho => addLink_nodup _ ho)
      (addLink_nodup _ List.nodup_nil) hp
  | news k l r =>
    exact poolModify_pres _ _ _ _ (fun o ho => addLink_nodup _ ho)
      (addLink_nodup _ List.nodup_nil) hp

theorem runOps_nodup (ops : List MergeOp) :
    ∀ pr ∈ runOps ops, pr.2.evidence_links.Nodup := by
  have key : ∀ (l : List MergeOp) (p : Pool), (∀ pr ∈ p, pr.2.evidence_links.Nodup) →
      ∀ pr ∈ l.foldl applyOp p, pr.2.evidence_links.Nodup := by
    intro l
    induction l with
    | nil =>
      intro p hp
      exact hp
    | cons op t ih =>
      intro p hp
      rw [List.foldl_cons]
      exact ih _ (applyOp_nodup p op hp)
  exact key ops [] fun pr hpr => absurd hpr (List.not_mem_nil pr)

/-- C9 (amended): over any sequence of merge steps from the empty pool,
every record's `evidence_links` contains no duplicate URL, and the
emitted output truncates it to at most 6 links, still duplicate-free.
The accumulated set is not capped during merging, and the program
leaves the set's iteration order unspecified (a Python `set()` is
hash-ordered), so no order property is asserted. -/
theorem claim9_thm (ops : List MergeOp) (pr : Str × ERec) (n : Nat) (it : OutItem) :
    (pr ∈ runOps ops → pr.2.evidence_links.Nodup)
    ∧ (it ∈ finalItems (runOps ops) n →
        it.evidence_links.length ≤ 6 ∧ it.evidence_links.Nodup) := by
  refine ⟨fun h => runOps_nodup ops pr h, fun h => ?_⟩
  have h2 : it ∈ emitItems (runOps ops) := mem_sortDesc.mp (List.take_subset _ _ h)
  obtain ⟨-, o, -, hlinks, k, hmem⟩ := mem_emitItems h2
  constructor
  · rw [hlinks]
    exact List.length_take_le _ _
  · rw [hlinks]
    exact List.Nodup.sublist (List.take_sublist _ _) (runOps_nodup ops (k, o) hmem)

/-- Witness for C9 on a two-step merge sequence. -/
theorem claim9_witness :
    ((⟨"b".toList, "m".toList, "t".toList, 4,
        [("naver_shop".toList, 2)], ["u1".toList, "u2".toList],
        ["r".toList, "r".toList]⟩ : ERec) : ERec).evidence_links.Nodup :=
  (claim9_thm
    [MergeOp.shop ("k".toList) ("b".toList) ("m".toList) ("t".toList) ("u1".toList)
      ("r".toList),
     MergeOp.shop ("k".toList) ("b".toList) ("m".toList) ("t".toList) ("u2".toList)
      ("r".toList)]
    ("k".toList, ⟨"b".toList, "m".toList, "t".toList, 4,
      [("naver_shop".toList, 2)], ["u1".toList, "u2".toList],
      ["r".toList, "r".toList]⟩) 1
    ⟨[], [], [], [], 0, 0, [], []⟩).1 (by decide)

/-- Counterexample to C9 as stated: after seven shopping merges with
seven distinct links, the pool record's `evidence_links` holds 7
entries — the fixed cap of 6 does not hold during merging, only in the
emitted output. -/
theorem claim9_cex :
    6 < (poolGetD
        (runOps
          [MergeOp.shop ("k".toList) ("b".toList) ("m".toList) ("t".toList) ("u1".toList)
            ("r".toList),
           MergeOp.shop ("k".toList) ("b".toList) ("m".toList) ("t".toList) ("u2".toList)
            ("r".toList),
           MergeOp.shop ("k".toList) ("b".toList) ("m".toList) ("t".toList) ("u3".toList)
            ("r".toList),
           MergeOp.shop ("k".toList) ("b".toList) ("m".toList) ("t".toList) ("u4".toList)
            ("r".toList),
           MergeOp.shop ("k".toList) ("b".toList) ("m".toList) ("t".toList) ("u5".toList)
            ("r".toList),
           MergeOp.shop ("k".toList) ("b".toList) ("m".toList) ("t".toList) ("u6".toList)
            ("r".toList),
           MergeOp.shop ("k".toList) ("b".toList) ("m".toList) ("t".toList) ("u7".toList)
            ("r".toList)])
        ("k".toList)).evidence_links.length := by
  decide

/-! ### Normalization: totality and idempotence -/

theorem unescapeF_id : ∀ (fuel : Nat) (s : Str), '&' ∉ s → unescapeF fuel s = s := by
  intro fuel
  induction fuel with
  | zero =>
    intro s _
    cases s <;> rfl
  | succ n ih =>
    intro s hs
    cases s with
    | nil => rfl
    | cons c rest =>
      have hc : ¬(c = '&') := fun he => hs (he ▸ List.mem_cons_self c rest)
      show unescapeF (n + 1) (c :: rest) = c :: rest
      simp only [unescapeF, if_neg hc]
      rw [ih rest fun h => hs (List.mem_cons_of_mem _ h)]

theorem unescape_id {s : Str} (hs : '&' ∉ s) : unescape s = s :=
  unescapeF_id _ s hs

theorem removeDelimF_id (o c : Char) :
    ∀ (fuel : Nat) (s : Str), o ∉ s → removeDelimF o c fuel s = s := by
  intro fuel
  induction fuel with
  | zero =>
    intro s _
    cases s <;> rfl
  | succ n ih =>
    intro s hs
    cases s with
    | nil => rfl
    | cons d rest =>
      have hd : ¬(d = o) := fun he => hs (he ▸ List.mem_cons_self d rest)
      show removeDelimF o c (n + 1) (d :: rest) = d :: rest
      simp only [removeDelimF, if_neg hd]
      rw [ih rest fun h => hs (List.mem_cons_of_mem _ h)]

theorem removeDelim_id {o c : Char} {s : Str} (h : o ∉ s) : removeDelim o c s = s :=
  removeDelimF_id o c _ s h

theorem mem_collapseWs : ∀ (l : Str) (b : Bool) (c : Char),
    c ∈ collapseWs b l → c = ' ' ∨ c ∈ l := by
  intro l
  induction l with
  | nil =>
    intro b c h
    simp [collapseWs] at h
  | cons d t ih =>
    intro b c h
    unfold collapseWs at h
    by_cases hd : pyIsSpace d = true
    · rw [if_pos hd] at h
      cases b with
      | true =>
        rw [if_pos rfl] at h
        rcases ih true c h with h' | h'
        · exact Or.inl h'
        · exact Or.inr (List.mem_cons_of_mem _ h')
      | false =>
        rw [if_neg (by simp)] at h
        rcases List.mem_cons.mp h with rfl | h'
        · exact Or.inl rfl
        · rcases ih true c h' with h'' | h''
          · exact Or.inl h''
          · exact Or.inr (List.mem_cons_of_mem _ h'')
    · rw [if_neg hd] at h
      rcases List.mem_cons.mp h with rfl | h'
      · exact Or.inr (List.mem_cons_self _ _)
      · rcases ih false c h' with h'' | h''
        · exact Or.inl h''
        · exact Or.inr (List.mem_cons_of_mem _ h'')

theorem collapse_good : ∀ l : Str,
    SpacedOk (collapseWs false l)
    ∧ SpacedOk (collapseWs true l)
    ∧ ∀ d, (collapseWs true l).head? = some d → pyIsSpace d = false := by
  intro l
  induction l with
  | nil =>
    refine ⟨⟨?_, List.chain'_nil⟩, ⟨?_, List.chain'_nil⟩, ?_⟩
    · intro c hc
      simp [collapseWs] at hc
    · intro c hc
      simp [collapseWs] at hc
    · intro d hd
      simp [collapseWs] at hd
  | cons c t ih =>
    obtain ⟨⟨hmF, hcF⟩, ⟨hmT, hcT⟩, hhT⟩ := ih
    by_cases hc : pyIsSpace c = true
    · have eF : collapseWs false (c :: t) = ' ' :: collapseWs true t := by
        simp [collapseWs, hc]
      have eT : collapseWs true (c :: t) = collapseWs true t := by
        simp [collapseWs, hc]
      rw [eF, eT]
      refine ⟨⟨?_, ?_⟩, ⟨hmT, hcT⟩, hhT⟩
      · intro x hx hsx
        rcases List.mem_cons.mp hx with rfl | hx
        · rfl
        · exact hmT x hx hsx
      · refine List.chain'_cons'.mpr ⟨?_, hcT⟩
        intro y hy hcon
        have hyf : pyIsSpace y = false := hhT y hy
        rw [hyf] at hcon
        exact absurd hcon.2 (by simp)
    · have hc' : pyIsSpace c = false := Bool.eq_false_iff.mpr hc
      have eF : collapseWs false (c :: t) = c :: collapseWs false t := by
        simp [collapseWs, hc]
      have eT : collapseWs true (c :: t) = c :: collapseWs false t := by
        simp [collapseWs, hc]
      rw [eF, eT]
      have hmem : ∀ x ∈ c :: collapseWs false t, pyIsSpace x = true → x = ' ' := by
        intro x hx hsx
        rcases List.mem_cons.mp hx with rfl | hx
        · exact absurd hsx hc
        · exact hmF x hx hsx
      have hch : List.Chain' (fun a b => ¬(pyIsSpace a = true ∧ pyIsSpace b = true))
          (c :: collapseWs false t) := by
        refine List.chain'_cons'.mpr ⟨?_, hcF⟩
        intro y _ hcon
        exact hc hcon.1
      refine ⟨⟨hmem, hch⟩, ⟨hmem, hch⟩, ?_⟩
      intro d hd
      rw [List.head?_cons] at hd
      injection hd with hd
      rw [← hd]
      exact hc'

theorem collapse_fixed : ∀ l : Str, SpacedOk l →
    (∀ x, l.getLast? = some x → pyIsSpace x = false) →
    collapseWs false l = l ∧ collapseWs true l = List.dropWhile pyIsSpace l := by
  intro l
  induction l with
  | nil =>
    intro _ _
    exact ⟨rfl, rfl⟩
  | cons c t ih =>
    intro hok h3
    obtain ⟨h1, h2⟩ := hok
    by_cases hc : pyIsSpace c = true
    · have hc' : c = ' ' := h1 c (List.mem_cons_self _ _) hc
      cases t with
      | nil =>
        have hf := h3 c (by simp)
        rw [hf] at hc
        exact absurd hc (by simp)
      | cons d t' =>
        have hnd : pyIsSpace d = false := by
          cases hsd : pyIsSpace d with
          | false => rfl
          | true =>
            rcases List.chain'_cons.mp h2 with ⟨hcd, -⟩
            exact absurd ⟨hc, hsd⟩ hcd
        obtain ⟨ihF, ihT⟩ := ih
          ⟨fun x hx => h1 x (List.mem_cons_of_mem _ hx), (List.chain'_cons.mp h2).2⟩
          (fun x hx => h3 x (by rw [List.getLast?_cons_cons]; exact hx))
        have hdt : List.dropWhile pyIsSpace (d :: t') = d :: t' := by
          rw [List.dropWhile_cons, if_neg (by rw [hnd]; simp)]
        constructor
        · rw [show collapseWs false (c :: d :: t') = ' ' :: collapseWs true (d :: t') from
            by simp [collapseWs, hc]]
          rw [ihT, hdt, hc']
        · rw [show collapseWs true (c :: d :: t') = collapseWs true (d :: t') from
            by simp [collapseWs, hc]]
          rw [ihT, hdt, List.dropWhile_cons, if_pos hc, hdt]
    · have hc' : pyIsSpace c = false := Bool.eq_false_iff.mpr hc
      have h3t : ∀ x, t.getLast? = some x → pyIsSpace x = false := by
        intro x hx
        cases t with
        | nil => exact absurd hx (by simp)
        | cons d t' => exact h3 x (by rw [List.getLast?_cons_cons]; exact hx)
      obtain ⟨ihF, ihT⟩ := ih
        ⟨fun x hx => h1 x (List.mem_cons_of_mem _ hx), List.Chain'.tail h2⟩ h3t
      constructor
      · rw [show collapseWs false (c :: t) = c :: collapseWs false t from
          by simp [collapseWs, hc], ihF]
      · rw [show collapseWs true (c :: t) = c :: collapseWs false t from
          by simp [collapseWs, hc], ihF, List.dropWhile_cons, if_neg (by rw [hc']; simp)]

theorem pyStrip_within (l : Str) : pyStrip l <:+: l := by
  have hp := List.rdropWhile_prefix pyIsSpace (List.dropWhile pyIsSpace l)
  have h1 := List.IsPrefix.isInfix hp
  have h2 : List.dropWhile pyIsSpace l <:+ l := List.dropWhile_suffix pyIsSpace
  have h3 := List.IsSuffix.isInfix h2
  exact List.IsInfix.trans h1 h3

theorem mem_pyStrip {c : Char} {l : Str} (h : c ∈ pyStrip l) : c ∈ l := by
  have h1 := List.IsInfix.sublist (pyStrip_within l)
  exact h1.subset h

theorem dropWhile_head_false {p : Char → Bool} {c : Char} {t' : Str} :
    ∀ l : Str, List.dropWhile p l = c :: t' → p c = false := by
  intro l
  induction l with
  | nil =>
    intro h
    exact absurd h (by simp)
  | cons a rest ih =>
    intro h
    rw [List.dropWhile_cons] at h
    by_cases ha : p a = true
    · rw [if_pos ha] at h
      exact ih h
    · rw [if_neg ha] at h
      injection h with h1 _
      rw [← h1]
      exact Bool.eq_false_iff.mpr ha

theorem head?_pyStrip (l : Str) : ∀ x, (pyStrip l).head? = some x → pyIsSpace x = false := by
  intro x hx
  cases hps : pyStrip l with
  | nil =>
    rw [hps] at hx
    exact absurd hx (by simp)
  | cons c rest =>
    rw [hps, List.head?_cons] at hx
    injection hx with hx
    rw [← hx]
    have hpre := List.rdropWhile_prefix pyIsSpace (List.dropWhile pyIsSpace l)
    obtain ⟨t0, ht0⟩ := hpre
    have hw : List.dropWhile pyIsSpace l = c :: (rest ++ t0) := by
      rw [← ht0]
      show pyStrip l ++ t0 = _
      rw [hps]
      simp
    exact dropWhile_head_false l hw

theorem pyStrip_getLast (l : Str) :
    ∀ x, (pyStrip l).getLast? = some x → pyIsSpace x = false := by
  intro x hx
  have hne : pyStrip l ≠ [] := by
    intro he
    rw [he] at hx
    exact absurd hx (by simp)
  have h1 := List.rdropWhile_last_not pyIsSpace (List.dropWhile pyIsSpace l) hne
  have h2 := List.getLast?_eq_getLast_of_ne_nil hne
  rw [hx] at h2
  injection h2 with h2
  rw [h2]
  exact Bool.eq_false_iff.mpr h1

theorem pyStrip_idem (l : Str) : pyStrip (pyStrip l) = pyStrip l := by
  show List.rdropWhile pyIsSpace (List.dropWhile pyIsSpace (pyStrip l)) = pyStrip l
  have hdw : List.dropWhile pyIsSpace (pyStrip l) = pyStrip l := by
    cases hps : pyStrip l with
    | nil => rfl
    | cons c rest =>
      have hc : pyIsSpace c = false := head?_pyStrip l c (by rw [hps, List.head?_cons])
      rw [List.dropWhile_cons, if_neg (by rw [hc]; simp)]
  rw [hdw]
  show List.rdropWhile pyIsSpace (List.rdropWhile pyIsSpace (List.dropWhile pyIsSpace l)) = _
  exact List.rdropWhile_idempotent _ _

theorem efcAllowed_of_mem_normalize {s : Str} {c : Char} (h : c ∈ EFC.normalize s) :
    efcAllowed c = true := by
  have h1 : c ∈ collapseWs false ((EFC.strip_tags s).map EFC.efcRepl) := mem_pyStrip h
  rcases mem_collapseWs _ _ _ h1 with rfl | h2
  · decide
  · obtain ⟨d, -, rfl⟩ := List.mem_map.mp h2
    unfold EFC.efcRepl
    split_ifs with hd
    · exact hd
    · decide

theorem map_efcRepl_id {l : Str} (hall : ∀ c ∈ l, efcAllowed c = true) :
    l.map EFC.efcRepl = l := by
  induction l with
  | nil => rfl
  | cons c t ih =>
    have hc : EFC.efcRepl c = c := by
      unfold EFC.efcRepl
      rw [if_pos (hall c (List.mem_cons_self _ _))]
    rw [List.map_cons, hc, ih fun x hx => hall x (List.mem_cons_of_mem _ hx)]

theorem strip_tags_normalize (s : Str) :
    EFC.strip_tags (EFC.normalize s) = EFC.normalize s := by
  have hamp : '&' ∉ EFC.normalize s := by
    intro h
    exact absurd (efcAllowed_of_mem_normalize h) (by decide)
  have hlt : '<' ∉ EFC.normalize s := by
    intro h
    exact absurd (efcAllowed_of_mem_normalize h) (by decide)
  unfold EFC.strip_tags
  rw [unescape_id hamp, removeDelim_id hlt]
  exact pyStrip_idem _

/-- C3: `normalize` is total (it is a function on all of `Str`,
returning `[]` in the worst case), idempotent, and maps the empty
string to the empty string. -/
theorem claim3_thm (s : Str) :
    EFC.normalize (EFC.normalize s) = EFC.normalize s ∧ EFC.normalize [] = [] := by
  constructor
  · have h1 : EFC.normalize (EFC.normalize s)
        = pyStrip (collapseWs false (EFC.normalize s)) := by
      show pyStrip (collapseWs false ((EFC.strip_tags (EFC.normalize s)).map EFC.efcRepl)) = _
      rw [strip_tags_normalize, map_efcRepl_id fun c hc => efcAllowed_of_mem_normalize hc]
    have hSP : SpacedOk (collapseWs false ((EFC.strip_tags s).map EFC.efcRepl)) :=
      (collapse_good _).1
    have hok : SpacedOk (EFC.normalize s) := by
      constructor
      · intro c hc
        exact hSP.1 c (mem_pyStrip hc)
      · have hin := pyStrip_within (collapseWs false ((EFC.strip_tags s).map EFC.efcRepl))
        exact List.Chain'.infix hSP.2 hin
    have hcoll := (collapse_fixed (EFC.normalize s) hok
      (pyStrip_getLast (collapseWs false ((EFC.strip_tags s).map EFC.efcRepl)))).1
    rw [h1, hcoll]
    exact pyStrip_idem (collapseWs false ((EFC.strip_tags s).map EFC.efcRepl))
  · decide
